import Mathlib

/-!
Shallow embedding of the matching/merge core of `src/app.py`
(2026 Olympic Fantasy Hockey Tracker).

The core consists of:
* `normalize` — `set(re.sub(r'[^\w\s]', '', str(name)).lower().split())`;
* `find_match` — linear scan of the stats table for the first record whose
  normalized name shares ≥ 2 tokens with the roster name;
* the merge loop building one merged row per roster row;
* `standings` — `final_df.groupby("Fantasy_Team")[[...]].sum().sort_values("Points", ascending=False)`.

Characters are modelled over the ASCII fragment: `\w` is
alphanumeric-or-underscore, `\s` is the six ASCII whitespace characters,
`str.lower()` is ASCII lowercasing (Lean's `Char.toLower`).
The code renders an absent match as the placeholder string `"-"`; here the
matched name is an `Option String`, `none` standing for that null placeholder.
-/

namespace OlympicsApp

/-- A character kept by `re.sub(r'[^\w\s]', '', ·)` because it matches `\w`
(ASCII model: alphanumeric or underscore). -/
def isWordChar (c : Char) : Bool := c.isAlphanum || c = '_'

/-- A character matching the regex class `\s` (ASCII model:
space, tab, newline, carriage return, vertical tab, form feed). -/
def isSpaceChar (c : Char) : Bool :=
  c = ' ' || c = '\t' || c = '\n' || c = '\r' || c = '\x0b' || c = '\x0c'

/-- A character surviving `re.sub(r'[^\w\s]', '', ·)`. -/
def keepChar (c : Char) : Bool := isWordChar c || isSpaceChar c

/-- `str.split()` with no separator: split on runs of whitespace,
discarding empty pieces.  `acc` holds the (reversed) current token. -/
def pySplit (acc : List Char) : List Char → List (List Char)
  | [] => if acc.isEmpty then [] else [acc.reverse]
  | c :: cs =>
    if isSpaceChar c then
      if acc.isEmpty then pySplit [] cs else acc.reverse :: pySplit [] cs
    else
      pySplit (c :: acc) cs

/-- The list of tokens of `re.sub(r'[^\w\s]', '', name).lower().split()`. -/
def tokensOf (name : String) : List String :=
  (pySplit [] ((name.toList.filter keepChar).map Char.toLower)).map
    (fun t => String.mk t)

/-- `normalize(name)` from app.py: the set of lowercased,
punctuation-stripped, whitespace-split tokens of `name`. -/
def normalize (name : String) : Finset String :=
  (tokensOf name).toFinset

/-- One row of the Olympic statistics table. -/
structure StatsRecord where
  player_name : String
  country : String
  goals : Int
  assists : Int
  points : Int
deriving DecidableEq, Repr

/-- One row of the fantasy roster table. -/
structure RosterEntry where
  fantasy_team : String
  player_name : String
deriving DecidableEq, Repr

/-- One merged row appended by the merge loop.  `olympic_name = none`
models the `"-"` placeholder used for an unmatched roster player. -/
structure MergedRow where
  fantasy_team : String
  player : String
  olympic_name : Option String
  goals : Int
  assists : Int
  points : Int
deriving DecidableEq, Repr

/-- One leaderboard row of `standings`. -/
structure Standing where
  fantasy_team : String
  goals : Int
  assists : Int
  points : Int
deriving DecidableEq, Repr

/-- `find_match(roster_name, stats_df)`: first stats row whose normalized
name shares at least two tokens with the normalized roster name. -/
def find_match (roster_name : String) (stats : List StatsRecord) :
    Option StatsRecord :=
  stats.find? (fun row =>
    decide (2 ≤ ((normalize roster_name) ∩ (normalize row.player_name)).card))

/-- The body of the merge loop for a single roster row. -/
def mergeRow (stats : List StatsRecord) (e : RosterEntry) : MergedRow :=
  match find_match e.player_name stats with
  | some m =>
    { fantasy_team := e.fantasy_team, player := e.player_name
      olympic_name := some m.player_name
      goals := m.goals, assists := m.assists, points := m.points }
  | none =>
    { fantasy_team := e.fantasy_team, player := e.player_name
      olympic_name := none, goals := 0, assists := 0, points := 0 }

/-- The merge loop: one merged row appended per roster row, in order. -/
def merged_data (roster : List RosterEntry) (stats : List StatsRecord) :
    List MergedRow :=
  roster.map (mergeRow stats)

/-- Lexicographic comparison of character lists by code point, the order
Python uses on strings. -/
def charListLe : List Char → List Char → Bool
  | [], _ => true
  | _ :: _, [] => false
  | c :: cs, d :: ds =>
    if c.toNat < d.toNat then true
    else if d.toNat < c.toNat then false
    else charListLe cs ds

/-- Ascending comparison on team names (pandas `groupby` sorts group keys
in Python string order, i.e. lexicographically by code point). -/
def strLe (a b : String) : Bool := charListLe a.toList b.toList

/-- Descending comparison on summed points
(`sort_values("Points", ascending=False)`). -/
def ptsGe (a b : Standing) : Bool := decide (b.points ≤ a.points)

/-- The per-team sums of `groupby("Fantasy_Team")[["Goals","Assists","Points"]].sum()`. -/
def groupSum (rows : List MergedRow) (team : String) : Standing :=
  let g := rows.filter (fun r => r.fantasy_team == team)
  { fantasy_team := team
    goals := (g.map MergedRow.goals).sum
    assists := (g.map MergedRow.assists).sum
    points := (g.map MergedRow.points).sum }

/-- The group keys, in the ascending order `groupby` emits them. -/
def groupKeys (rows : List MergedRow) : List String :=
  ((rows.map MergedRow.fantasy_team).dedup).mergeSort strLe

/-- The grouped-and-summed table, before the final sort. -/
def grouped (rows : List MergedRow) : List Standing :=
  (groupKeys rows).map (groupSum rows)

/-- `standings`: group by team, sum, then sort descending by summed points.
The source sorts with `sort_values("Points", ascending=False)` and the
default `kind='quicksort'`, whose order among equal point totals is
unspecified (numpy documents the sort as unstable); this model fixes a
deterministic order by using a merge sort.  No theorem below depends on how
equal-points groups are ordered relative to each other. -/
def standings (rows : List MergedRow) : List Standing :=
  (grouped rows).mergeSort ptsGe

/-- `get_starter_pack()` from app.py, used below as concrete test data. -/
def starterPack : List StatsRecord :=
  [⟨"McDAVID Connor", "CAN", 3, 8, 11⟩, ⟨"CROSBY Sidney", "CAN", 2, 4, 6⟩,
   ⟨"MACKINNON Nathan", "CAN", 2, 3, 5⟩, ⟨"MAKAR Cale", "CAN", 1, 4, 5⟩,
   ⟨"BEDARD Connor", "CAN", 2, 2, 4⟩, ⟨"POINT Brayden", "CAN", 3, 1, 4⟩,
   ⟨"MATTHEWS Auston", "USA", 3, 2, 5⟩, ⟨"HUGHES Jack", "USA", 1, 4, 5⟩,
   ⟨"TKACHUK Matthew", "USA", 2, 3, 5⟩, ⟨"FOX Adam", "USA", 0, 4, 4⟩,
   ⟨"SLAFKOVSKY Juraj", "SVK", 4, 2, 6⟩, ⟨"PASTRNAK David", "CZE", 2, 3, 5⟩,
   ⟨"KUCHEROV Nikita", "AIN", 3, 4, 7⟩, ⟨"KAPRIZOV Kirill", "AIN", 4, 1, 5⟩,
   ⟨"RANTANEN Mikko", "FIN", 2, 2, 4⟩, ⟨"JOSI Roman", "SUI", 1, 3, 4⟩]

/-- `" ".join` over plain strings, the joining step of the idempotence
property. -/
def joinTokens : List String → String
  | [] => ""
  | [t] => t
  | t :: ts => t ++ " " ++ joinTokens ts

/-- Character-level counterpart of `joinTokens`. -/
def joinChars : List (List Char) → List Char
  | [] => []
  | [t] => t
  | t :: ts => t ++ ' ' :: joinChars ts

/-! ### Shared helper lemmas -/

lemma merged_data_length (R : List RosterEntry) (S : List StatsRecord) :
    (merged_data R S).length = R.length := by
  simp [merged_data]

/-! #### Character-level facts about lowercasing and the kept classes -/

lemma char_eq_iff_toNat (c d : Char) : c = d ↔ c.toNat = d.toNat :=
  ⟨fun h => h ▸ rfl, fun h => by rw [← Char.ofNat_toNat c, h, Char.ofNat_toNat]⟩

lemma toNat_toLower_of_upper (c : Char) (h1 : 65 ≤ c.toNat)
    (h2 : c.toNat ≤ 90) : (Char.toLower c).toNat = c.toNat + 32 := by
  have hv : (c.toNat + 32).isValidChar := Or.inl (by omega)
  simp only [Char.toLower, if_pos (And.intro h1 h2)]
  rw [Char.ofNat, dif_pos hv]
  rfl

lemma toLower_of_not_upper (c : Char)
    (h : ¬ (65 ≤ c.toNat ∧ c.toNat ≤ 90)) : Char.toLower c = c := by
  simp only [Char.toLower, if_neg h]

lemma isUpper_iff_toNat (c : Char) :
    c.isUpper = true ↔ 65 ≤ c.toNat ∧ c.toNat ≤ 90 := by
  simp only [Char.isUpper, Bool.and_eq_true, decide_eq_true_eq, ge_iff_le,
    UInt32.le_def, BitVec.le_def]
  exact Iff.rfl

lemma isLower_iff_toNat (c : Char) :
    c.isLower = true ↔ 97 ≤ c.toNat ∧ c.toNat ≤ 122 := by
  simp only [Char.isLower, Bool.and_eq_true, decide_eq_true_eq, ge_iff_le,
    UInt32.le_def, BitVec.le_def]
  exact Iff.rfl

lemma isDigit_iff_toNat (c : Char) :
    c.isDigit = true ↔ 48 ≤ c.toNat ∧ c.toNat ≤ 57 := by
  simp only [Char.isDigit, Bool.and_eq_true, decide_eq_true_eq, ge_iff_le,
    UInt32.le_def, BitVec.le_def]
  exact Iff.rfl

lemma isWordChar_iff_toNat (c : Char) :
    isWordChar c = true ↔
      (65 ≤ c.toNat ∧ c.toNat ≤ 90) ∨ (97 ≤ c.toNat ∧ c.toNat ≤ 122) ∨
      (48 ≤ c.toNat ∧ c.toNat ≤ 57) ∨ c.toNat = 95 := by
  have h95 : ('_').toNat = 95 := rfl
  simp [isWordChar, Char.isAlphanum, Char.isAlpha, isUpper_iff_toNat,
    isLower_iff_toNat, isDigit_iff_toNat, char_eq_iff_toNat, h95]
  tauto

lemma isSpaceChar_iff_toNat (c : Char) :
    isSpaceChar c = true ↔
      c.toNat = 32 ∨ c.toNat = 9 ∨ c.toNat = 10 ∨ c.toNat = 13 ∨
      c.toNat = 11 ∨ c.toNat = 12 := by
  have h1 : (' ').toNat = 32 := rfl
  have h2 : ('\t').toNat = 9 := rfl
  have h3 : ('\n').toNat = 10 := rfl
  have h4 : ('\r').toNat = 13 := rfl
  have h5 : ('\x0b').toNat = 11 := rfl
  have h6 : ('\x0c').toNat = 12 := rfl
  simp [isSpaceChar, char_eq_iff_toNat, h1, h2, h3, h4, h5, h6]
  tauto

/-- A character of the normalized character stream: it survives the regex
filter and is a fixed point of lowercasing. -/
def cleanChar (c : Char) : Prop := keepChar c = true ∧ Char.toLower c = c

lemma cleanChar_toLower_of_keep (c : Char) (h : keepChar c = true) :
    cleanChar (Char.toLower c) := by
  rcases (by simpa [keepChar] using h : isWordChar c = true ∨ isSpaceChar c = true) with hw | hs
  · rcases (isWordChar_iff_toNat c).mp hw with hu | hrest
    · -- uppercase letter: it is lowered into the lowercase range
      have htn := toNat_toLower_of_upper c hu.1 hu.2
      have hnu : ¬ (65 ≤ (Char.toLower c).toNat ∧ (Char.toLower c).toNat ≤ 90) := by omega
      refine ⟨?_, toLower_of_not_upper _ hnu⟩
      have : isWordChar (Char.toLower c) = true :=
        (isWordChar_iff_toNat _).mpr (Or.inr (Or.inl (by omega)))
      simp [keepChar, this]
    · -- lowercase letter, digit or underscore: lowering is the identity
      have hnu : ¬ (65 ≤ c.toNat ∧ c.toNat ≤ 90) := by
        rcases hrest with h | h | h <;> omega
      have hfix := toLower_of_not_upper c hnu
      exact ⟨by rw [hfix]; exact h, by rw [hfix, hfix]⟩
  · -- whitespace: far below the uppercase range, lowering is the identity
    have hnu : ¬ (65 ≤ c.toNat ∧ c.toNat ≤ 90) := by
      rcases (isSpaceChar_iff_toNat c).mp hs with h | h | h | h | h | h <;> omega
    have hfix := toLower_of_not_upper c hnu
    exact ⟨by rw [hfix]; exact h, by rw [hfix, hfix]⟩

lemma cleanChar_space : cleanChar ' ' := by
  refine ⟨by decide, toLower_of_not_upper _ (by intro h; exact absurd h.1 (by decide))⟩

/-- A clean non-whitespace character is a lowercase letter, a digit or an
underscore, and in particular not uppercase. -/
lemma cleanChar_classify (c : Char) (hc : cleanChar c)
    (hns : isSpaceChar c = false) :
    (c.isLower = true ∨ c.isDigit = true ∨ c = '_') ∧ c.isUpper = false := by
  obtain ⟨hk, hfix⟩ := hc
  have hw : isWordChar c = true := by
    rcases (by simpa [keepChar] using hk :
        isWordChar c = true ∨ isSpaceChar c = true) with h | h
    · exact h
    · rw [h] at hns; exact absurd hns (by simp)
  have hnotup : ¬ (65 ≤ c.toNat ∧ c.toNat ≤ 90) := by
    intro hu
    have := toNat_toLower_of_upper c hu.1 hu.2
    rw [hfix] at this
    omega
  rcases (isWordChar_iff_toNat c).mp hw with hu | hl | hd | h95
  · exact absurd hu hnotup
  · exact ⟨Or.inl ((isLower_iff_toNat c).mpr hl), by
      rw [← Bool.not_eq_true, isUpper_iff_toNat]; omega⟩
  · exact ⟨Or.inr (Or.inl ((isDigit_iff_toNat c).mpr hd)), by
      rw [← Bool.not_eq_true, isUpper_iff_toNat]; omega⟩
  · exact ⟨Or.inr (Or.inr ((char_eq_iff_toNat c '_').mpr h95)), by
      rw [← Bool.not_eq_true, isUpper_iff_toNat]; omega⟩

/-! #### Facts about the whitespace splitter and the token lists -/

lemma pySplit_token_chars :
    ∀ (l acc : List Char), ∀ t ∈ pySplit acc l, ∀ c ∈ t,
      c ∈ acc ∨ (c ∈ l ∧ isSpaceChar c = false) := by
  intro l
  induction l with
  | nil =>
    intro acc t ht c hc
    rw [pySplit] at ht
    by_cases ha : acc.isEmpty = true
    · rw [if_pos ha] at ht; simp at ht
    · rw [if_neg ha, List.mem_singleton] at ht
      subst ht
      exact Or.inl (List.mem_reverse.mp hc)
  | cons x xs ih =>
    intro acc t ht c hc
    rw [pySplit] at ht
    by_cases hx : isSpaceChar x = true
    · rw [if_pos hx] at ht
      by_cases ha : acc.isEmpty = true
      · rw [if_pos ha] at ht
        rcases ih [] t ht c hc with h | ⟨h1, h2⟩
        · simp at h
        · exact Or.inr ⟨List.mem_cons_of_mem x h1, h2⟩
      · rw [if_neg ha, List.mem_cons] at ht
        rcases ht with rfl | ht
        · exact Or.inl (List.mem_reverse.mp hc)
        · rcases ih [] t ht c hc with h | ⟨h1, h2⟩
          · simp at h
          · exact Or.inr ⟨List.mem_cons_of_mem x h1, h2⟩
    · rw [if_neg hx] at ht
      rcases ih (x :: acc) t ht c hc with h | ⟨h1, h2⟩
      · rcases List.mem_cons.mp h with rfl | h
        · exact Or.inr ⟨List.mem_cons_self c xs, Bool.not_eq_true _ ▸ hx⟩
        · exact Or.inl h
      · exact Or.inr ⟨List.mem_cons_of_mem x h1, h2⟩

lemma pySplit_token_ne_nil :
    ∀ (l acc : List Char), ∀ t ∈ pySplit acc l, t ≠ [] := by
  intro l
  induction l with
  | nil =>
    intro acc t ht
    rw [pySplit] at ht
    by_cases ha : acc.isEmpty = true
    · rw [if_pos ha] at ht; simp at ht
    · rw [if_neg ha, List.mem_singleton] at ht
      subst ht
      simpa [List.isEmpty_iff] using ha
  | cons x xs ih =>
    intro acc t ht
    rw [pySplit] at ht
    by_cases hx : isSpaceChar x = true
    · rw [if_pos hx] at ht
      by_cases ha : acc.isEmpty = true
      · rw [if_pos ha] at ht
        exact ih [] t ht
      · rw [if_neg ha, List.mem_cons] at ht
        rcases ht with rfl | ht
        · simpa [List.isEmpty_iff] using ha
        · exact ih [] t ht
    · rw [if_neg hx] at ht
      exact ih (x :: acc) t ht

lemma pySplit_append_of_nonspace :
    ∀ (t : List Char), (∀ c ∈ t, isSpaceChar c = false) →
      ∀ (acc l : List Char), pySplit acc (t ++ l) = pySplit (t.reverse ++ acc) l := by
  intro t
  induction t with
  | nil => intro _ acc l; simp
  | cons c t ih =>
    intro h acc l
    have hc : isSpaceChar c = false := h c (List.mem_cons_self c t)
    rw [List.cons_append, pySplit, if_neg (by simp [hc])]
    rw [ih (fun d hd => h d (List.mem_cons_of_mem c hd)) (c :: acc) l]
    congr 1
    simp

lemma pySplit_joinChars :
    ∀ (ts : List (List Char)),
      (∀ t ∈ ts, t ≠ [] ∧ ∀ c ∈ t, isSpaceChar c = false) →
      pySplit [] (joinChars ts) = ts := by
  intro ts
  induction ts with
  | nil => intro _; rfl
  | cons t ts ih =>
    intro h
    obtain ⟨htne, htns⟩ := h t (List.mem_cons_self t ts)
    cases ts with
    | nil =>
      show pySplit [] t = [t]
      have := pySplit_append_of_nonspace t htns [] []
      rw [List.append_nil] at this
      rw [this, List.append_nil, pySplit,
        if_neg (by simpa [List.isEmpty_iff] using htne)]
      simp
    | cons t' ts' =>
      show pySplit [] (t ++ ' ' :: joinChars (t' :: ts')) = t :: t' :: ts'
      rw [pySplit_append_of_nonspace t htns [] _, List.append_nil, pySplit]
      rw [if_pos (by decide), if_neg (by simpa [List.isEmpty_iff] using htne)]
      rw [List.reverse_reverse]
      rw [ih (fun u hu => h u (List.mem_cons_of_mem t hu))]

lemma mem_joinChars :
    ∀ (ts : List (List Char)) (c : Char), c ∈ joinChars ts →
      c = ' ' ∨ ∃ t ∈ ts, c ∈ t := by
  intro ts
  induction ts with
  | nil => intro c h; simp [joinChars] at h
  | cons t ts ih =>
    intro c h
    cases ts with
    | nil =>
      exact Or.inr ⟨t, List.mem_cons_self t [], by simpa [joinChars] using h⟩
    | cons t' ts' =>
      have h' : c ∈ t ++ ' ' :: joinChars (t' :: ts') := by
        simpa [joinChars] using h
      rcases List.mem_append.mp h' with hmem | hmem
      · exact Or.inr ⟨t, List.mem_cons_self t _, hmem⟩
      · rcases List.mem_cons.mp hmem with rfl | hmem
        · exact Or.inl rfl
        · rcases ih c hmem with h | ⟨u, hu, hcu⟩
          · exact Or.inl h
          · exact Or.inr ⟨u, List.mem_cons_of_mem t hu, hcu⟩

lemma toList_append (a b : String) : (a ++ b).toList = a.toList ++ b.toList := by
  simp

lemma toList_joinTokens :
    ∀ (l : List String), (joinTokens l).toList = joinChars (l.map String.toList) := by
  intro l
  induction l with
  | nil => rfl
  | cons t ts ih =>
    cases ts with
    | nil => rfl
    | cons t' ts' =>
      show (t ++ " " ++ joinTokens (t' :: ts')).toList =
        t.toList ++ ' ' :: joinChars ((t' :: ts').map String.toList)
      rw [toList_append, toList_append, ih]
      have hsp : (" " : String).toList = [' '] := rfl
      rw [hsp]
      simp

/-- Every token produced by `normalize` is a nonempty word whose characters
survive the filter, are fixed by lowercasing, and are not whitespace. -/
lemma tokensOf_spec (n : String) (t : String) (ht : t ∈ tokensOf n) :
    t.toList ≠ [] ∧
      ∀ c ∈ t.toList, cleanChar c ∧ isSpaceChar c = false := by
  obtain ⟨tc, htc, rfl⟩ := List.mem_map.mp ht
  refine ⟨by simpa using pySplit_token_ne_nil _ [] tc htc, ?_⟩
  intro c hc
  have hc' : c ∈ tc := by simpa using hc
  rcases pySplit_token_chars _ [] tc htc c hc' with h | ⟨hmem, hns⟩
  · simp at h
  · refine ⟨?_, hns⟩
    obtain ⟨c₀, hc₀, rfl⟩ := List.mem_map.mp hmem
    exact cleanChar_toLower_of_keep c₀ (List.of_mem_filter hc₀)

/-! #### The team-name order and the standings machinery -/

lemma ptsGe_trans (a b c : Standing) (h1 : ptsGe a b = true)
    (h2 : ptsGe b c = true) : ptsGe a c = true := by
  simp only [ptsGe, decide_eq_true_eq] at h1 h2 ⊢
  exact le_trans h2 h1

lemma ptsGe_total (a b : Standing) : (ptsGe a b || ptsGe b a) = true := by
  simp only [ptsGe, Bool.or_eq_true, decide_eq_true_eq]
  exact le_total b.points a.points

lemma mergeSort_pair {α : Type} (le : α → α → Bool) (a b : α) :
    List.mergeSort [a, b] le = if le a b then [a, b] else [b, a] := by
  simp [List.mergeSort, List.merge]

lemma mem_grouped_eq (rows : List MergedRow) (st : Standing)
    (h : st ∈ grouped rows) : st = groupSum rows st.fantasy_team := by
  obtain ⟨k, hk, rfl⟩ := List.mem_map.mp h
  rfl

lemma standings_perm_grouped (rows : List MergedRow) :
    (standings rows).Perm (grouped rows) :=
  List.mergeSort_perm _ ptsGe

lemma standings_sorted_points (rows : List MergedRow) :
    (standings rows).Pairwise (fun a b => b.points ≤ a.points) := by
  have h := List.sorted_mergeSort ptsGe_trans ptsGe_total (grouped rows)
  exact h.imp (fun hab => by simpa [ptsGe] using hab)

/-! ### Theorems for the claims -/

/-- C2: the merge produces exactly one merged row per roster entry, so the
merged list has the same length as the roster list, whatever the stats list
is — no roster entry is dropped or duplicated. -/
theorem merge_length_eq_roster_length (R : List RosterEntry)
    (S : List StatsRecord) : (merged_data R S).length = R.length :=
  merged_data_length R S

/-- C9: `normalize "Connor McDavid"` and `normalize "McDAVID, Connor."`
agree, and both are the token set `{"connor", "mcdavid"}`. -/
theorem normalize_mcdavid_example :
    normalize "Connor McDavid" = normalize "McDAVID, Connor." ∧
    normalize "Connor McDavid" = {"connor", "mcdavid"} := by
  constructor
  · decide
  · decide

/-- C8: a roster name whose normalized token set has fewer than two tokens
can never match: `find_match` returns `none` on every stats table. -/
theorem find_match_mononym_none (n : String) (h : (normalize n).card < 2)
    (S : List StatsRecord) : find_match n S = none := by
  rw [find_match, List.find?_eq_none]
  intro r _
  simp only [decide_eq_true_eq, not_le]
  calc ((normalize n) ∩ (normalize r.player_name)).card
      ≤ (normalize n).card := Finset.card_le_card Finset.inter_subset_left
    _ < 2 := h

theorem find_match_mononym_none_witness :
    (normalize "Mcdavid").card < 2 ∧ find_match "Mcdavid" starterPack = none :=
  ⟨by decide, find_match_mononym_none "Mcdavid" (by decide) starterPack⟩

/-- C3: a roster entry whose name shares fewer than two normalized tokens
with every stats record yields a merged row with zero goals, assists and
points and a null matched name. -/
theorem merged_row_unmatched_zero (R : List RosterEntry)
    (S : List StatsRecord) (i : Nat) (h : i < R.length)
    (hm : ∀ r ∈ S,
      ((normalize (R.get ⟨i, h⟩).player_name) ∩
        (normalize r.player_name)).card < 2) :
    (merged_data R S)[i]? = some
      { fantasy_team := (R.get ⟨i, h⟩).fantasy_team
        player := (R.get ⟨i, h⟩).player_name
        olympic_name := none, goals := 0, assists := 0, points := 0 } := by
  have hfm : find_match (R.get ⟨i, h⟩).player_name S = none := by
    rw [find_match, List.find?_eq_none]
    intro r hr
    simpa only [decide_eq_true_eq, not_le] using hm r hr
  have : (merged_data R S)[i]? = some (mergeRow S (R.get ⟨i, h⟩)) := by
    simp [merged_data, List.getElem?_map, List.getElem?_eq_getElem h]
  rw [this, mergeRow, hfm]

theorem merged_row_unmatched_zero_witness :
    (0 : Nat) < ([⟨"Wolves", "Teemu Selanne"⟩] : List RosterEntry).length ∧
    (merged_data [⟨"Wolves", "Teemu Selanne"⟩] starterPack)[0]? = some
      { fantasy_team := "Wolves", player := "Teemu Selanne"
        olympic_name := none, goals := 0, assists := 0, points := 0 } :=
  ⟨by decide,
    merged_row_unmatched_zero [⟨"Wolves", "Teemu Selanne"⟩] starterPack 0
      (by decide) (by decide)⟩

/-- C10: the merge preserves roster order — the `i`-th merged row carries the
team and player name of the `i`-th roster entry, and when its matched name is
non-null its goals, assists, points and matched name are copied from some
record of the stats list. -/
theorem merged_row_from_roster (R : List RosterEntry) (S : List StatsRecord)
    (i : Nat) (h : i < R.length) :
    ∃ row, (merged_data R S)[i]? = some row ∧
      row.fantasy_team = (R.get ⟨i, h⟩).fantasy_team ∧
      row.player = (R.get ⟨i, h⟩).player_name ∧
      (row.olympic_name = none ∨
        ∃ r ∈ S, row.olympic_name = some r.player_name ∧
          row.goals = r.goals ∧ row.assists = r.assists ∧
          row.points = r.points) := by
  refine ⟨mergeRow S (R.get ⟨i, h⟩), ?_, ?_⟩
  · simp [merged_data, List.getElem?_map, List.getElem?_eq_getElem h]
  · rw [mergeRow]
    cases hfm : find_match (R.get ⟨i, h⟩).player_name S with
    | none => exact ⟨rfl, rfl, Or.inl rfl⟩
    | some m =>
      exact ⟨rfl, rfl, Or.inr ⟨m, List.mem_of_find?_eq_some hfm,
        rfl, rfl, rfl, rfl⟩⟩

theorem merged_row_from_roster_witness :
    (0 : Nat) < ([⟨"Wolves", "Connor McDavid"⟩] : List RosterEntry).length ∧
    ∃ row,
      (merged_data [⟨"Wolves", "Connor McDavid"⟩] starterPack)[0]? =
          some row ∧
      row.fantasy_team = "Wolves" ∧ row.player = "Connor McDavid" ∧
      (row.olympic_name = none ∨
        ∃ r ∈ starterPack, row.olympic_name = some r.player_name ∧
          row.goals = r.goals ∧ row.assists = r.assists ∧
          row.points = r.points) :=
  ⟨by decide,
    merged_row_from_roster [⟨"Wolves", "Connor McDavid"⟩] starterPack 0
      (by decide)⟩

/-- C6: `normalize` is idempotent — joining the tokens of `normalize n` with
whitespace (in any order, which is all a Python `set` guarantees) and
normalizing the joined string returns the same token set. -/
theorem normalize_idempotent (n : String) (l : List String)
    (hl : l.toFinset = normalize n) :
    normalize (joinTokens l) = normalize n := by
  have htok : ∀ t ∈ l, t.toList ≠ [] ∧
      ∀ c ∈ t.toList, cleanChar c ∧ isSpaceChar c = false := by
    intro t htl
    have h1 : t ∈ normalize n := by
      rw [← hl]; exact List.mem_toFinset.mpr htl
    exact tokensOf_spec n t (by simpa [normalize] using h1)
  set J : List Char := joinChars (l.map String.toList) with hJ
  have hclean : ∀ c ∈ J, cleanChar c := by
    intro c hc
    rcases mem_joinChars _ c hc with rfl | ⟨tc, htc, hctc⟩
    · exact cleanChar_space
    · obtain ⟨t, htl, rfl⟩ := List.mem_map.mp htc
      exact ((htok t htl).2 c hctc).1
  have hfilter : J.filter keepChar = J :=
    List.filter_eq_self.mpr (fun c hc => (hclean c hc).1)
  have hmap : J.map Char.toLower = J := by
    rw [List.map_congr_left (fun c hc => (hclean c hc).2)]
    exact List.map_id J
  have hsplit : pySplit [] J = l.map String.toList := by
    rw [hJ]
    apply pySplit_joinChars
    intro tc htc
    obtain ⟨t, htl, rfl⟩ := List.mem_map.mp htc
    exact ⟨(htok t htl).1, fun c hc => ((htok t htl).2 c hc).2⟩
  have hJoin : (joinTokens l).toList = J := toList_joinTokens l
  rw [normalize, tokensOf, hJoin, hfilter, hmap, hsplit]
  rw [← hl]
  congr 1
  rw [List.map_map]
  exact (List.map_congr_left (fun t _ => rfl)).trans (List.map_id l)

theorem normalize_idempotent_witness :
    (["mcdavid", "connor"] : List String).toFinset =
        normalize "Connor McDavid" ∧
    normalize (joinTokens ["mcdavid", "connor"]) =
        normalize "Connor McDavid" :=
  ⟨by decide,
    normalize_idempotent "Connor McDavid" ["mcdavid", "connor"] (by decide)⟩

/-- C7 counterexample: `normalize` does not return only alphanumeric
tokens — the regex class `\w` keeps underscores, which are punctuation that
is not removed, so `normalize "A_b"` contains the non-alphanumeric token
`"a_b"`. -/
theorem normalize_underscore_counterexample :
    "a_b" ∈ normalize "A_b" ∧
      ∃ c ∈ ("a_b" : String).toList, c.isAlphanum = false := by
  refine ⟨by decide, '_', by decide, by decide⟩

/-- C7 (amended): `normalize n` is a set of nonempty tokens over the word
characters — lowercase letters, digits and underscore, never uppercase and
never whitespace — obtained by deleting the non-`\w`, non-`\s` characters
and splitting on whitespace only (duplicates are impossible: the result is
a set). -/
theorem normalize_token_shape (n : String) (t : String)
    (ht : t ∈ normalize n) :
    t ≠ "" ∧ ∀ c ∈ t.toList,
      (c.isLower = true ∨ c.isDigit = true ∨ c = '_') ∧
        c.isUpper = false ∧ isSpaceChar c = false := by
  have ht' : t ∈ tokensOf n := by simpa [normalize] using ht
  obtain ⟨hne, hch⟩ := tokensOf_spec n t ht'
  constructor
  · intro he; subst he; exact hne rfl
  · intro c hc
    obtain ⟨hcl, hns⟩ := hch c hc
    obtain ⟨hclass, hup⟩ := cleanChar_classify c hcl hns
    exact ⟨hclass, hup, hns⟩

theorem normalize_token_shape_witness :
    ("connor" ∈ normalize "Connor McDavid") ∧
    ("connor" ≠ "" ∧ ∀ c ∈ ("connor" : String).toList,
      (c.isLower = true ∨ c.isDigit = true ∨ c = '_') ∧
        c.isUpper = false ∧ isSpaceChar c = false) :=
  ⟨by decide, normalize_token_shape "Connor McDavid" "connor" (by decide)⟩

/-- The merged rows of the aggregation example in the spec:
`[{team:"A",points:5},{team:"A",points:3},{team:"B",points:10}]`. -/
def exampleRows : List MergedRow :=
  [⟨"A", "p1", none, 0, 0, 5⟩, ⟨"A", "p2", none, 0, 0, 3⟩,
   ⟨"B", "p3", none, 0, 0, 10⟩]

/-- C4: `standings` groups the merged rows by team, sums goals, assists and
points per group, and orders the groups descending by summed points;
in particular on the example rows the standings are `B:10` then `A:8`. -/
theorem standings_groups_sums_sorts :
    (∀ rows : List MergedRow,
      ((standings rows).map Standing.fantasy_team).Perm
          ((rows.map MergedRow.fantasy_team).dedup) ∧
      (∀ st ∈ standings rows,
        st.goals = ((rows.filter
          (fun r => r.fantasy_team == st.fantasy_team)).map
            MergedRow.goals).sum ∧
        st.assists = ((rows.filter
          (fun r => r.fantasy_team == st.fantasy_team)).map
            MergedRow.assists).sum ∧
        st.points = ((rows.filter
          (fun r => r.fantasy_team == st.fantasy_team)).map
            MergedRow.points).sum) ∧
      (standings rows).Pairwise (fun a b => b.points ≤ a.points)) ∧
    (standings exampleRows).map (fun st => (st.fantasy_team, st.points)) =
      [("B", 10), ("A", 8)] := by
  constructor
  · intro rows
    refine ⟨?_, ?_, standings_sorted_points rows⟩
    · have h1 : ((standings rows).map Standing.fantasy_team).Perm
          ((grouped rows).map Standing.fantasy_team) :=
        (standings_perm_grouped rows).map _
      have h2 : (grouped rows).map Standing.fantasy_team = groupKeys rows := by
        rw [grouped, List.map_map]
        exact (List.map_congr_left (fun k _ => rfl)).trans (List.map_id _)
      have h3 : (groupKeys rows).Perm
          ((rows.map MergedRow.fantasy_team).dedup) :=
        List.mergeSort_perm _ strLe
      rw [h2] at h1
      exact h1.trans h3
    · intro st hst
      have hmem : st ∈ grouped rows :=
        (standings_perm_grouped rows).mem_iff.mp hst
      have hst' := mem_grouped_eq rows st hmem
      exact ⟨congrArg Standing.goals hst', congrArg Standing.assists hst',
        congrArg Standing.points hst'⟩
  · have hd : ((exampleRows.map MergedRow.fantasy_team).dedup) =
        ["A", "B"] := by decide
    have hkeys : groupKeys exampleRows = ["A", "B"] := by
      rw [groupKeys, hd]
      exact List.mergeSort_of_sorted (by decide)
    have hgr : grouped exampleRows =
        [⟨"A", 0, 0, 8⟩, ⟨"B", 0, 0, 10⟩] := by
      rw [grouped, hkeys]; decide
    rw [standings, hgr, mergeSort_pair, if_neg (by decide)]
    decide

/-- C1: `find_match` normalizes the roster name, scans the stats table in
order, and returns the first record whose normalized name shares at least
two tokens with the roster name; it returns `none` exactly when no record
qualifies. -/
theorem find_match_first_match_semantics (n : String)
    (S : List StatsRecord) :
    (∀ r, find_match n S = some r →
      2 ≤ ((normalize n) ∩ (normalize r.player_name)).card ∧
      ∃ l₁ l₂, S = l₁ ++ r :: l₂ ∧
        ∀ q ∈ l₁, ((normalize n) ∩ (normalize q.player_name)).card < 2) ∧
    (find_match n S = none ↔
      ∀ r ∈ S, ((normalize n) ∩ (normalize r.player_name)).card < 2) := by
  constructor
  · induction S with
    | nil => intro r hr; simp [find_match] at hr
    | cons a T ih =>
      intro r hr
      rw [find_match, List.find?_cons] at hr
      by_cases ha : 2 ≤ ((normalize n) ∩ (normalize a.player_name)).card
      · simp only [ha, decide_True] at hr
        cases hr
        exact ⟨ha, [], T, rfl, by simp⟩
      · simp only [ha, decide_False] at hr
        obtain ⟨h2, l₁, l₂, hT, hl₁⟩ := ih r hr
        refine ⟨h2, a :: l₁, l₂, by rw [hT]; rfl, ?_⟩
        intro q hq
        rcases List.mem_cons.mp hq with hqa | hql
        · subst hqa; omega
        · exact hl₁ q hql
  · rw [find_match, List.find?_eq_none]
    constructor
    · intro hall r hr
      have := hall r hr
      simpa only [decide_eq_true_eq, not_le] using this
    · intro hall r hr
      simpa only [decide_eq_true_eq, not_le] using hall r hr

end OlympicsApp
